import Mathlib

/-!
# Verification of the jub0bs-cors matching core

This development gives a shallow embedding, in Lean 4, of the two core data
structures of the repository — the `SortedSet` of header names
(`internal/util`) and the right-to-left radix `Tree` of origin patterns
(`internal/radix`) — together with the peripheral header-map helpers
(`internal/headers`), and proves (or refutes) the specified properties.

Go byte strings are modelled as `List Nat` (one `Nat` per byte), Go `int`
as `Int`, and Go maps as association lists or functions, as noted at each
definition. Each definition mirrors the corresponding Go function; loops
are modelled as recursive functions (with an explicit fuel parameter where
the Go loop's termination relies on a data-structure invariant).
-/

namespace JubCors

/-- A Go byte string: `string` in Go is an immutable byte sequence. -/
abbrev GoStr := List Nat

/-- The byte `','` (0x2c), the separator used by `SortedSet`. -/
def commaByte : Nat := 44

/-- The byte `'*'` (0x2a), the wildcard marker used by the radix tree. -/
def starByte : Nat := 42

/-! ## SortedSet (internal/util/sortedset.go)

The Go type is `struct { m map[string]int; maxLen int }`. The map `m` is
modelled as the association list of its entries, in the order the
construction loop writes them (keys are pairwise distinct by construction,
so the list determines the map).
-/

/-- Byte-wise lexicographic order on byte strings: the order used by Go's
`slices.Sort` on `string` values (`"" ≤ s`; a proper prefix sorts first). -/
def lexLe : GoStr → GoStr → Bool
  | [], _ => true
  | _ :: _, [] => false
  | a :: s, b :: t => if a < b then true else if b < a then false else lexLe s t

/-- Strict byte-wise lexicographic order on byte strings. -/
def lexLt : GoStr → GoStr → Bool
  | _, [] => false
  | [], _ :: _ => true
  | a :: s, b :: t => if a < b then true else if b < a then false else lexLt s t

/-- Helper for `compactAdj`: drops the elements equal to the previously
kept element `prev`, keeping the first element of each new run. -/
def compactTail {α : Type} [DecidableEq α] (prev : α) : List α → List α
  | [] => []
  | b :: rest => if prev = b then compactTail prev rest else b :: compactTail b rest

/-- Go `slices.Compact`: removes consecutive duplicate elements,
keeping the first of each run. -/
def compactAdj {α : Type} [DecidableEq α] : List α → List α
  | [] => []
  | a :: rest => a :: compactTail a rest

/-- The loop `for i, s := range elems { ... m[s] = i }` of `NewSortedSet`:
associates to each element of the list its index, starting at `i`. -/
def enumPairs : Nat → List GoStr → List (GoStr × Nat)
  | _, [] => []
  | i, s :: rest => (s, i) :: enumPairs (i + 1) rest

/-- The loop `for i, s := range elems { maxLen = max(maxLen, len(s)) ... }`
of `NewSortedSet`: folds `max` of the byte lengths over the list. -/
def maxLenFold : Nat → List GoStr → Nat
  | m, [] => m
  | m, s :: rest => maxLenFold (max m s.length) rest

/-- The Go struct `SortedSet`. `entries` is the contents of the map `m`
(element ↦ rank), listed in the order the construction loop inserts them. -/
structure SortedSet where
  entries : List (GoStr × Nat)
  maxLen : Nat

/-- The ordering relation `lexLe`, as a `Prop`-valued relation. -/
def LexLe (a b : GoStr) : Prop := lexLe a b = true

instance : DecidableRel LexLe := fun a b => by
  unfold LexLe; infer_instance

/-- `slices.Sort(elems)` followed by `elems = slices.Compact(elems)`
in `NewSortedSet`: the sorted, adjacent-deduplicated element list.
(Go's `slices.Sort` is an unstable sort, but on values of type `string`
the sorted arrangement of a list is unique, so insertion sort computes
exactly the same list.) -/
def sortedDedup (elems : List GoStr) : List GoStr :=
  compactAdj (List.insertionSort LexLe elems)

/-- Go `NewSortedSet(elems ...string)`: sorts, compacts, then records each
element's index in the map and the maximum element length. -/
def NewSortedSet (elems : List GoStr) : SortedSet :=
  { entries := enumPairs 0 (sortedDedup elems)
    maxLen := maxLenFold 0 (sortedDedup elems) }

/-- Go `SortedSet.Size()`, i.e. `len(set.m)`: the number of keys of `m`. -/
def SortedSet.size (set : SortedSet) : Nat := set.entries.length

/-- The map lookup `set.m[s]`: `some rank` if present, `none` if absent. -/
def SortedSet.rankOf (set : SortedSet) (s : GoStr) : Option Nat :=
  (set.entries.find? (fun p => p.1 == s)).map (·.2)

/-- The loop `for elem, i := range set.m { elems[i] = elem }` of
`SortedSet.String`: writes each element at its rank in the buffer. -/
def buildElems (entries : List (GoStr × Nat)) (acc : List GoStr) : List GoStr :=
  entries.foldl (fun acc p => acc.set p.2 p.1) acc

/-- Helper for `goJoin`: the tail of the join, each element
preceded by the separator. -/
def goJoinRest (sep : GoStr) : List GoStr → GoStr
  | [] => []
  | s :: rest => sep ++ s ++ goJoinRest sep rest

/-- Go `strings.Join(elems, sep)`. -/
def goJoin (sep : GoStr) : List GoStr → GoStr
  | [] => []
  | s :: rest => s ++ goJoinRest sep rest

/-- Go `SortedSet.String()`: allocates a buffer of `len(set.m)` slots,
writes each element at its rank, and joins with a comma. -/
def SortedSet.string (set : SortedSet) : GoStr :=
  goJoin [commaByte] (buildElems set.entries (List.replicate set.size []))

/-- Go `strings.IndexByte(s, b)`: index of the first occurrence of byte `b`
in `s`, or `none`. -/
def indexByte : GoStr → Nat → Option Nat
  | [], _ => none
  | a :: s, b => if a = b then some 0 else (indexByte s b).map (· + 1)

/-- Go `cutAtComma(s, n)`: slices `s` around the first comma among (up to)
the first `n` bytes of `s`; if no comma appears in that portion,
returns `(s, "", false)`. -/
def cutAtComma (s : GoStr) (n : Nat) : GoStr × GoStr × Bool :=
  let stop := min s.length n
  match indexByte (s.take stop) commaByte with
  | some i => (s.take i, s.drop (i + 1), true)
  | none => (s, [], false)

theorem indexByte_lt_length {s : GoStr} {b i : Nat} (h : indexByte s b = some i) :
    i < s.length := by
  induction s generalizing i with
  | nil => simp [indexByte] at h
  | cons a t ih =>
    simp only [indexByte] at h
    split at h
    · cases h; simp
    · match hh : indexByte t b with
      | none => rw [hh] at h; simp at h
      | some j =>
        rw [hh] at h
        simp only [Option.map_some'] at h
        cases h
        simpa using ih hh

theorem cutAtComma_found_length {s : GoStr} {n : Nat} {before after : GoStr}
    (h : cutAtComma s n = (before, after, true)) : after.length < s.length := by
  unfold cutAtComma at h
  simp only at h
  split at h
  next i hidx =>
    cases h
    have hi : i < (s.take (min s.length n)).length := indexByte_lt_length hidx
    have : i < s.length := lt_of_lt_of_le hi (by simp [List.length_take])
    simp only [List.length_drop]
    omega
  next => simp at h

/-- The loop of Go `SortedSet.Subsumes`, after the initial empty-string
check. `posOfLastNameSeen` starts at `-1`. -/
def subsumesLoop (set : SortedSet) (chunkSize : Nat) (csv : GoStr)
    (posOfLastNameSeen : Int) : Bool :=
  match h : cutAtComma csv chunkSize with
  | (name, rest, commaFound) =>
    match set.rankOf name with
    | none => false
    | some pos =>
      if (pos : Int) ≤ posOfLastNameSeen then false
      else if hc : commaFound then
        have : rest.length < csv.length :=
          cutAtComma_found_length (hc ▸ h)
        subsumesLoop set chunkSize rest pos
      else true
termination_by csv.length

/-- Go `SortedSet.Subsumes(csv)`. -/
def SortedSet.subsumes (set : SortedSet) (csv : GoStr) : Bool :=
  if csv = [] then true
  else subsumesLoop set (set.maxLen + 1) csv (-1)

/-! ## Radix tree (internal/radix/radix.go)

Tags are Go `int` values, modelled as `Int`. The type `util.Set[int]` is
not part of the shown sources; it is modelled from the spec.
-/

/-- Modelled from the spec: `util.Set[int]`, a mathematical set of integer
tags ("a *regular tag set*: integers associated with a pattern"); the zero
value (Go `nil`) is the empty set, here the empty list. The list never
holds duplicates, since elements are only added when absent. -/
abbrev TagSet := List Int

/-- Go `WildcardElem`: the sentinel value that subsumes all others. -/
def WildcardElem : Int := -1

/-- Modelled from the spec: `util.NewSet(elem)`, the singleton set. -/
def NewSet (elem : Int) : TagSet := [elem]

/-- Modelled from the spec: `util.Set.Contains`, set membership
(false on the `nil` set). -/
def setContains (s : TagSet) (v : Int) : Bool := s.contains v

/-- Modelled from the spec: `util.Set.Add`, adds an element to a
(non-nil) set. -/
def setAdd (s : TagSet) (elem : Int) : TagSet :=
  if s.contains elem then s else s ++ [elem]

/-- Go `wildcardSingleton = util.NewSet(WildcardElem)`. -/
def wildcardSingleton : TagSet := NewSet WildcardElem

/-- A node of the radix tree. `edges` is the Go map `edges map[byte]*node`,
modelled as a function from byte to optional child. -/
inductive Node : Type where
  | mk : GoStr → (Nat → Option Node) → TagSet → TagSet → Node

/-- The node's `suffix` field. -/
def Node.suffix : Node → GoStr
  | .mk sfx _ _ _ => sfx

/-- The node's `edges` field. -/
def Node.edges : Node → Nat → Option Node
  | .mk _ e _ _ => e

/-- The node's `set` field (regular tag set). -/
def Node.set : Node → TagSet
  | .mk _ _ s _ => s

/-- The node's `wildcardSet` field. -/
def Node.wildcardSet : Node → TagSet
  | .mk _ _ _ w => w

/-- A fresh node `&node{suffix: sfx}` with no edges and empty tag sets. -/
def newNode (sfx : GoStr) : Node := .mk sfx (fun _ => none) [] []

/-- The body of Go `node.add` acting on the selected tag set:
a `WildcardElem` replaces the whole set by `wildcardSingleton`;
a `nil` set is replaced by a fresh singleton; a set containing
`WildcardElem` is left alone; otherwise the element is added. -/
def nodeAddSet (set : TagSet) (elem : Int) : TagSet :=
  if elem = WildcardElem then wildcardSingleton
  else if set = [] then NewSet elem
  else if setContains set WildcardElem then set
  else setAdd set elem

/-- Go `node.add(elem, wildcardPattern)`: applies `nodeAddSet` to the
wildcard tag set or to the regular tag set, per `wildcardPattern`. -/
def Node.add (n : Node) (elem : Int) (wildcardPattern : Bool) : Node :=
  match n with
  | .mk sfx e s w =>
    if wildcardPattern then .mk sfx e s (nodeAddSet w elem)
    else .mk sfx e (nodeAddSet s elem) w

/-- Go `node.insertEdge(label, child)`: binds `label` to `child` in the
edge map (the Go `nil`-map check only avoids an allocation; the net effect
is always a single-key update). -/
def Node.insertEdge (n : Node) (label : Nat) (child : Node) : Node :=
  match n with
  | .mk sfx e s w => .mk sfx (fun b => if b = label then some child else e b) s w

/-- Go `lastByteIn(str) = str[len(str)-1]` (callers ensure `str` is
non-empty; the default is irrelevant). -/
def lastByteIn (str : GoStr) : Nat := str.getLastD 0

/-- The first component of Go `splitRight(str, k) = (str[:len(str)-k], str[len(str)-k:])`. -/
def splitRightStart (str : GoStr) (k : Nat) : GoStr := str.take (str.length - k)

/-- The second component of Go `splitRight(str, k)`. -/
def splitRightEnd (str : GoStr) (k : Nat) : GoStr := str.drop (str.length - k)

/-- Length of the common prefix of two byte strings. -/
def commonPrefixLen : GoStr → GoStr → Nat
  | a :: s, b :: t => if a = b then commonPrefixLen s t + 1 else 0
  | _, _ => 0

/-- Go `lengthOfCommonSuffix(a, b)`: the number of trailing bytes shared
by `a` and `b` (the Go loop scans the two strings right-to-left until the
first mismatch; equivalently, the common prefix of the reversals). -/
def lengthOfCommonSuffix (a b : GoStr) : Nat := commonPrefixLen a.reverse b.reverse

/-- Go `strings.HasSuffix(s, suf)`. -/
def goHasSuffix (s suf : GoStr) : Bool := decide (suf <:+ s)

/-- The `for` loop of Go `Tree.Insert`, one fuel unit per iteration.
In the Go source every iteration of this loop either returns or strictly
shortens `search` (each consumed suffix is non-empty for every tree
reachable by insertions), so fuel `len(search) + 1` is never exhausted;
on fuel 0 the current node is returned unchanged.

Note the final (node-splitting) branch of the Go loop body does not
return: the loop re-enters with the not-yet-re-attached existing node
and the shortened remainder, which is modelled by the recursive call
producing `continued` below. -/
def insertLoop : Nat → Node → GoStr → Int → Bool → Node
  | 0, n, _, _, _ => n
  | fuel + 1, n, search, v, wildcardPattern =>
    if search = [] then n.add v wildcardPattern
    else if setContains n.wildcardSet v then n -- nothing more to do
    else
      match n.edges (lastByteIn search) with
      | none => -- no matching edge found; create one
        n.insertEdge (lastByteIn search) ((newNode search).add v wildcardPattern)
      | some c => -- matching edge found
        let suffixLen := lengthOfCommonSuffix search c.suffix
        if suffixLen = c.suffix.length then -- c.suffix is a suffix of search
          n.insertEdge (lastByteIn search)
            (insertLoop fuel c (splitRightStart search suffixLen) v wildcardPattern)
        else
          -- c.suffix is NOT a suffix of search; split the node
          let byteBeforeSuffix := c.suffix.getD (c.suffix.length - 1 - suffixLen) 0
          let restored : Node := .mk (splitRightStart c.suffix suffixLen) c.edges c.set c.wildcardSet
          if search.length = suffixLen then -- search is a suffix of c.suffix
            n.insertEdge (lastByteIn search)
              ((Node.mk (splitRightEnd search suffixLen)
                  (fun b => if b = byteBeforeSuffix then some restored else none)
                  [] []).add v wildcardPattern)
          else
            -- search is NOT a suffix of c.suffix
            let search' := splitRightStart search suffixLen
            let grandChild := (newNode search').add v wildcardPattern
            let continued := insertLoop fuel restored search' v wildcardPattern
            n.insertEdge (lastByteIn search)
              (Node.mk (splitRightEnd search suffixLen)
                (fun b =>
                  if b = lastByteIn search' then some grandChild
                  else if b = byteBeforeSuffix then some continued
                  else none)
                [] [])

/-- The `for` loop of Go `Tree.Contains`, one fuel unit per iteration
(fuel `len(k) + 1` is never exhausted, as above; on fuel 0 no match is
reported). -/
def containsLoop : Nat → Node → GoStr → Int → Bool
  | 0, _, _, _ => false
  | fuel + 1, n, search, v =>
    if search = [] then setContains n.set v || setContains n.set WildcardElem
    else if setContains n.wildcardSet v || setContains n.wildcardSet WildcardElem then
      true -- nothing more to check
    else
      match n.edges (lastByteIn search) with
      | none => false
      | some c =>
        if goHasSuffix search c.suffix then
          containsLoop fuel c (splitRightStart search c.suffix.length) v
        else false

/-- Go `Tree`; its zero value is the empty tree. -/
structure Tree where
  root : Node

/-- The zero value of `Tree`: an empty root node. -/
def emptyTree : Tree := ⟨Node.mk [] (fun _ => none) [] []⟩

/-- Go `Tree.Insert(keyPattern, v)`: strips a leading `*`, then walks
down from the root. -/
def Tree.Insert (t : Tree) (keyPattern : GoStr) (v : Int) : Tree :=
  let wildcardPattern : Bool := decide (keyPattern.head? = some starByte)
  let search := if wildcardPattern then keyPattern.tail else keyPattern
  ⟨insertLoop (search.length + 1) t.root search v wildcardPattern⟩

/-- Go `Tree.Contains(k, v)`. -/
def Tree.Contains (t : Tree) (k : GoStr) (v : Int) : Bool :=
  containsLoop (k.length + 1) t.root k v

/-- A sequence of insertions performed on a tree, in order. -/
def insertAll (t : Tree) : List (GoStr × Int) → Tree
  | [] => t
  | (p, v) :: rest => insertAll (t.Insert p v) rest

/-! ## Header-map helpers (internal/headers/common.go)

`http.Header` is a Go `map[string][]string`; it is modelled as a function
from keys to an optional value slice (`none` = key absent). -/

/-- An `http.Header` map. -/
abbrev Header := String → Option (List String)

/-- The canonical `Vary` header name. -/
def Vary : String := "Vary"

/-- Go `AddVary(hdrs, v, sgl)`: if `Vary` is absent, install `sgl`
directly; otherwise append the scalar `v` to the existing sequence. -/
def AddVary (hdrs : Header) (v : String) (sgl : List String) : Header :=
  match hdrs Vary with
  | none => fun k => if k = Vary then some sgl else hdrs k -- fast path
  | some old => fun k => if k = Vary then some (old ++ [v]) else hdrs k -- slow path

/-- Go `First(hdrs, k)`: first value of `hdrs[k]` as a scalar and as the
length-1 slice `v[:1]`, plus a found flag; `("", nil, false)` when `k` is
absent or its slice is empty. -/
def First (hdrs : Header) (k : String) : String × List String × Bool :=
  match hdrs k with
  | none => ("", [], false)
  | some [] => ("", [], false)
  | some (a :: rest) => (a, (a :: rest).take 1, true)

/-! ## Specification-side definitions

These definitions follow the specification's *words* (not the code); they
exist to be compared against the behaviour of the embedded code. -/

/-- The pattern-matching relation of the specification, for one inserted
pattern: a pattern whose first byte is not `*` matches exactly itself;
a pattern `*` ++ s matches `u ++ s` for every non-empty `u`. -/
def specKeyMatches (p k : GoStr) : Bool :=
  if p.head? = some starByte then
    goHasSuffix k p.tail && decide (p.tail.length < k.length)
  else decide (k = p)

/-- The membership relation the specification prescribes for the tree:
`(k, v)` is contained after a sequence of insertions iff some inserted
pair `(p, t)` has a matching tag (`t = v` or `t` the match-all sentinel)
and a pattern matching `k`. -/
def specTreeContains (inserted : List (GoStr × Int)) (k : GoStr) (v : Int) : Bool :=
  inserted.any (fun pt => (pt.2 == v || pt.2 == WildcardElem) && specKeyMatches pt.1 k)

/-! ## C1: tree membership against the specification's matching relation -/

/-- **C1.** The claim fails on the code, and the code (not the claim) is at
fault: the final node-splitting branch of the `Tree.Insert` loop body does
not return, so the loop re-enters with the detached original child node and
re-inserts the remaining key fragment into that node's subtree, creating a
spurious path. Concretely, after `Insert("ab", 1)` and `Insert("cb", 2)` —
no wildcard patterns, so by the claim only the exact keys "ab" and "cb"
should match — `Contains("cab", 2)` evaluates to `true`, although "cab"
matches no inserted pair under the specification's relation. -/
theorem c1_contains_violates_spec :
    (insertAll emptyTree [([97, 98], 1), ([99, 98], 2)]).Contains [99, 97, 98] 2 = true ∧
    specTreeContains [([97, 98], 1), ([99, 98], 2)] [99, 97, 98] 2 = false :=
  ⟨by decide, by decide⟩

/-! ## C3: the wildcard short-circuit in `Insert` -/

/-- **C3, counterexample.** The claim states that if, during the walk with
a non-empty unconsumed remainder, the current node's wildcard tag set
contains the inserted tag *or the match-all sentinel −1*, the insertion is
a no-op. The code only checks for the inserted tag itself: after
`Insert("*", −1)` the root's wildcard set contains the sentinel, yet
`Insert("a", 5)` — whose walk starts at the root with non-empty remainder
"a" — still modifies the tree (a fresh edge for byte 0x61 appears). -/
theorem c3_counterexample :
    setContains (emptyTree.Insert [42] WildcardElem).root.wildcardSet WildcardElem = true ∧
    ([97] : GoStr) ≠ [] ∧
    (((emptyTree.Insert [42] WildcardElem).Insert [97] 5).root.edges 97).isSome = true ∧
    ((emptyTree.Insert [42] WildcardElem).root.edges 97).isSome = false :=
  ⟨by decide, by decide, by decide, by decide⟩

/-- **C3, amended.** If at the start of an insertion step the unconsumed
remainder is non-empty and the current node's wildcard tag set contains
the inserted tag itself (the sentinel −1 is not consulted), the walk stops
there and the subtree rooted at the current node is returned unchanged;
in particular, when this holds at the root the whole tree is unchanged. -/
theorem c3_insert_shortcircuit_noop (fuel : Nat) (n : Node) (search : GoStr)
    (v : Int) (w : Bool) (hs : search ≠ [])
    (hw : setContains n.wildcardSet v = true) :
    insertLoop fuel n search v w = n := by
  cases fuel with
  | zero => rfl
  | succ f => simp [insertLoop, hs, hw]

/-- Witness for the amended C3 at a concrete input: a node whose wildcard
set already holds tag 7, with remainder "a". -/
theorem c3_insert_shortcircuit_noop_witness :
    insertLoop 2 (Node.mk [98] (fun _ => none) [] [7]) [97] 7 true
      = Node.mk [98] (fun _ => none) [] [7] :=
  c3_insert_shortcircuit_noop 2 _ [97] 7 true (by decide) (by decide)

/-! ## C7: the bounded scan shrinks the input -/

/-- **C7.** Each iteration of the `Subsumes` loop either returns or
strictly shortens the remaining input: when `cutAtComma` reports a comma,
the returned remainder is strictly shorter than its input, and when it
reports none (a comma-free chunk ends the final token) the remainder is
empty, so the loop terminates on every input. (The Lean embedding
`subsumesLoop` is a total function by this very measure.) -/
theorem c7_subsumes_scan_shrinks (s : GoStr) (n : Nat) :
    ((cutAtComma s n).2.2 = true → (cutAtComma s n).2.1.length < s.length) ∧
    ((cutAtComma s n).2.2 = false → (cutAtComma s n).2.1 = []) := by
  constructor
  · intro h
    exact cutAtComma_found_length (by
      have : cutAtComma s n = ((cutAtComma s n).1, (cutAtComma s n).2.1, (cutAtComma s n).2.2) := rfl
      rw [this, h])
  · intro h
    unfold cutAtComma at h ⊢
    simp only at h ⊢
    split at h
    · simp at h
    · next heq => simp only [heq]

/-- Witness for C7 at a concrete input: scanning `"a,b"` with chunk size 4
finds the comma and shrinks the remainder. -/
theorem c7_subsumes_scan_shrinks_witness :
    (cutAtComma [97, 44, 98] 4).2.1.length < ([97, 44, 98] : GoStr).length :=
  (c7_subsumes_scan_shrinks [97, 44, 98] 4).1 rfl

/-! ## C8, C9: header-map helpers -/

/-- **C8.** For a header map, a scalar `v` and a singleton slice `sgl`
with head `v`: if `Vary` is absent, `AddVary` installs exactly `sgl`;
if `Vary` is present with prior value `old`, `AddVary` stores `old`
with the scalar `v` appended. -/
theorem c8_addVary (hdrs : Header) (v : String) (sgl : List String)
    (_hsgl : sgl ≠ []) (_hhead : sgl.head? = some v) :
    (hdrs Vary = none → AddVary hdrs v sgl Vary = some sgl) ∧
    (∀ old, hdrs Vary = some old → AddVary hdrs v sgl Vary = some (old ++ [v])) := by
  constructor
  · intro h; simp [AddVary, h]
  · intro old h; simp [AddVary, h]

/-- Witness for C8 at a concrete input: an empty map receives the
singleton slice `["Origin"]` unchanged. -/
theorem c8_addVary_witness :
    AddVary (fun _ => none) "Origin" ["Origin"] Vary = some ["Origin"] :=
  (c8_addVary (fun _ => none) "Origin" ["Origin"] (by simp) (by simp)).1 rfl

/-- **C9.** `First` returns `("", nil, false)` both when the key is absent
and when the key maps to an empty slice; whenever it reports found, the
scalar is the first element of the stored slice and the returned slice is
the length-1 view holding exactly that scalar. -/
theorem c9_first_guarded (hdrs : Header) (k : String) :
    ((hdrs k = none ∨ hdrs k = some []) → First hdrs k = ("", [], false)) ∧
    ((First hdrs k).2.2 = true →
      ∃ a rest, hdrs k = some (a :: rest) ∧ First hdrs k = (a, [a], true)) := by
  constructor
  · rintro (h | h) <;> simp [First, h]
  · intro h
    match hh : hdrs k with
    | none => simp [First, hh] at h
    | some [] => simp [First, hh] at h
    | some (a :: rest) => exact ⟨a, rest, rfl, by simp [First, hh]⟩

/-- Witness for C9 at a concrete input: a key mapped to the empty slice is
reported as absent. -/
theorem c9_first_guarded_witness :
    First (fun _ => some []) "Origin" = ("", [], false) :=
  (c9_first_guarded (fun _ => some []) "Origin").1 (Or.inr rfl)

/-! ## Order lemmas for the byte-wise lexicographic order -/

/-- The strict order, as a `Prop`-valued relation. -/
def LexLt (a b : GoStr) : Prop := lexLt a b = true

theorem lexLe_refl (a : GoStr) : lexLe a a = true := by
  induction a with
  | nil => rfl
  | cons x s ih => simp [lexLe, ih]

theorem lexLe_total (a b : GoStr) : lexLe a b = true ∨ lexLe b a = true := by
  induction a generalizing b with
  | nil => left; rfl
  | cons x s ih =>
    cases b with
    | nil => right; rfl
    | cons y t =>
      rcases Nat.lt_trichotomy x y with h | h | h
      · left; simp [lexLe, h]
      · subst h
        rcases ih t with hh | hh
        · left; simp [lexLe, hh]
        · right; simp [lexLe, hh]
      · right; simp [lexLe, h]

theorem lexLe_trans {a b c : GoStr} (h1 : lexLe a b = true)
    (h2 : lexLe b c = true) : lexLe a c = true := by
  induction a generalizing b c with
  | nil => rfl
  | cons x s ih =>
    cases b with
    | nil => simp [lexLe] at h1
    | cons y t =>
      cases c with
      | nil => simp [lexLe] at h2
      | cons z u =>
        simp only [lexLe] at h1 h2 ⊢
        rcases Nat.lt_trichotomy x y with hxy | hxy | hxy
        · rcases Nat.lt_trichotomy y z with hyz | hyz | hyz
          · simp [Nat.lt_trans hxy hyz]
          · subst hyz; simp [hxy]
          · simp [show ¬ y < z by omega, hyz] at h2
        · subst hxy
          rcases Nat.lt_trichotomy x z with hyz | hyz | hyz
          · simp [hyz]
          · subst hyz
            simp only [lt_irrefl, if_false] at h1 h2 ⊢
            exact ih h1 h2
          · simp [show ¬ x < z by omega, hyz] at h2
        · simp [show ¬ x < y by omega, hxy] at h1

theorem lexLe_antisymm {a b : GoStr} (h1 : lexLe a b = true)
    (h2 : lexLe b a = true) : a = b := by
  induction a generalizing b with
  | nil =>
    cases b with
    | nil => rfl
    | cons y t => simp [lexLe] at h2
  | cons x s ih =>
    cases b with
    | nil => simp [lexLe] at h1
    | cons y t =>
      simp only [lexLe] at h1 h2
      rcases Nat.lt_trichotomy x y with hxy | hxy | hxy
      · simp [show ¬ y < x by omega, hxy] at h2
      · subst hxy
        simp only [lt_irrefl, if_false] at h1 h2
        exact congrArg (x :: ·) (ih h1 h2)
      · simp [show ¬ x < y by omega, hxy] at h1

theorem lexLt_iff (a b : GoStr) : lexLt a b = true ↔ lexLe a b = true ∧ a ≠ b := by
  induction a generalizing b with
  | nil =>
    cases b with
    | nil => simp [lexLt, lexLe]
    | cons y t => simp [lexLt, lexLe]
  | cons x s ih =>
    cases b with
    | nil => simp [lexLt, lexLe]
    | cons y t =>
      simp only [lexLt, lexLe]
      rcases Nat.lt_trichotomy x y with hxy | hxy | hxy
      · simp [hxy]; omega
      · subst hxy
        simp only [lt_irrefl, if_false]
        rw [ih t]
        constructor
        · rintro ⟨h1, h2⟩; exact ⟨h1, by simp [h2]⟩
        · rintro ⟨h1, h2⟩; exact ⟨h1, by simpa using h2⟩
      · simp [show ¬ x < y by omega, hxy]

instance : IsTotal GoStr LexLe := ⟨fun a b => lexLe_total a b⟩

instance : IsTrans GoStr LexLe := ⟨fun _ _ _ => lexLe_trans⟩

instance : IsAntisymm GoStr LexLe := ⟨fun _ _ => lexLe_antisymm⟩

theorem LexLt.le {a b : GoStr} (h : LexLt a b) : LexLe a b :=
  ((lexLt_iff a b).1 h).1

theorem LexLt.ne {a b : GoStr} (h : LexLt a b) : a ≠ b :=
  ((lexLt_iff a b).1 h).2

theorem LexLt.of_le_ne {a b : GoStr} (h1 : LexLe a b) (h2 : a ≠ b) : LexLt a b :=
  (lexLt_iff a b).2 ⟨h1, h2⟩

theorem LexLt.trans_le {a b c : GoStr} (h1 : LexLt a b) (h2 : LexLe b c) : LexLt a c := by
  refine LexLt.of_le_ne (lexLe_trans h1.le h2) (fun hac => ?_)
  subst hac
  exact h1.ne (lexLe_antisymm h1.le h2)

/-! ## Construction lemmas: `sortedDedup` is strictly sorted with the
same members as the input -/

theorem mem_of_mem_compactTail {α : Type} [DecidableEq α] {prev x : α} {l : List α}
    (h : x ∈ compactTail prev l) : x ∈ l := by
  induction l generalizing prev with
  | nil => simp [compactTail] at h
  | cons b rest ih =>
    simp only [compactTail] at h
    split at h
    · exact List.mem_cons_of_mem _ (ih h)
    · rcases List.mem_cons.1 h with h | h
      · simp [h]
      · exact List.mem_cons_of_mem _ (ih h)

theorem mem_compactTail_or_eq {α : Type} [DecidableEq α] {prev x : α} {l : List α}
    (h : x ∈ l) : x = prev ∨ x ∈ compactTail prev l := by
  induction l generalizing prev with
  | nil => simp at h
  | cons b rest ih =>
    rcases List.mem_cons.1 h with hx | hx
    · subst hx
      by_cases hb : prev = x
      · exact Or.inl hb.symm
      · right; simp [compactTail, hb]
    · by_cases hb : prev = b
      · subst hb
        rcases @ih prev hx with h' | h'
        · exact Or.inl h'
        · right; simpa [compactTail] using h'
      · rcases @ih b hx with h' | h'
        · subst h'
          right; simp [compactTail, hb]
        · right
          simp only [compactTail, if_neg hb]
          exact List.mem_cons_of_mem _ h'

theorem mem_compactAdj {α : Type} [DecidableEq α] {x : α} {l : List α} :
    x ∈ compactAdj l ↔ x ∈ l := by
  cases l with
  | nil => simp [compactAdj]
  | cons a rest =>
    simp only [compactAdj, List.mem_cons]
    constructor
    · rintro (h | h)
      · simp [h]
      · exact Or.inr (mem_of_mem_compactTail h)
    · rintro (h | h)
      · exact Or.inl h
      · rcases @mem_compactTail_or_eq _ _ a x rest h with h' | h'
        · exact Or.inl h'
        · exact Or.inr h'

theorem pairwise_compactTail {prev : GoStr} {l : List GoStr}
    (hp : l.Pairwise LexLe) (hall : ∀ x ∈ l, LexLe prev x) :
    (compactTail prev l).Pairwise LexLt ∧
      ∀ x ∈ compactTail prev l, LexLt prev x := by
  induction l generalizing prev with
  | nil => simp [compactTail]
  | cons b rest ih =>
    have hb := hall b (by simp)
    have hrest : ∀ x ∈ rest, LexLe b x := (List.pairwise_cons.1 hp).1
    have hp' : rest.Pairwise LexLe := (List.pairwise_cons.1 hp).2
    by_cases hpb : prev = b
    · subst hpb
      simpa [compactTail] using ih hp' hrest
    · have hlt : LexLt prev b := LexLt.of_le_ne hb hpb
      have hres := @ih b hp' hrest
      simp only [compactTail, if_neg hpb]
      refine ⟨List.pairwise_cons.2 ⟨fun x hx => ?_, hres.1⟩, ?_⟩
      · exact hres.2 x hx
      · intro x hx
        rcases List.mem_cons.1 hx with h' | h'
        · exact h' ▸ hlt
        · exact hlt.trans_le (hres.2 x h').le

theorem pairwise_compactAdj {l : List GoStr} (hp : l.Pairwise LexLe) :
    (compactAdj l).Pairwise LexLt := by
  cases l with
  | nil => simp [compactAdj]
  | cons a rest =>
    have hrest : ∀ x ∈ rest, LexLe a x := (List.pairwise_cons.1 hp).1
    have hp' : rest.Pairwise LexLe := (List.pairwise_cons.1 hp).2
    have hres := pairwise_compactTail hp' hrest
    exact List.pairwise_cons.2 ⟨hres.2, hres.1⟩

theorem pairwise_sortedDedup (L : List GoStr) : (sortedDedup L).Pairwise LexLt :=
  pairwise_compactAdj (List.sorted_insertionSort LexLe L)

theorem mem_sortedDedup {L : List GoStr} {s : GoStr} :
    s ∈ sortedDedup L ↔ s ∈ L := by
  unfold sortedDedup
  rw [mem_compactAdj]
  exact (List.perm_insertionSort LexLe L).mem_iff

theorem nodup_sortedDedup (L : List GoStr) : (sortedDedup L).Nodup :=
  (pairwise_sortedDedup L).imp (fun h => h.ne)

/-- Two strictly sorted lists with the same members are equal. -/
theorem sortedDedup_unique {D₁ D₂ : List GoStr} (h1 : D₁.Pairwise LexLt)
    (h2 : D₂.Pairwise LexLt) (hm : ∀ s, s ∈ D₁ ↔ s ∈ D₂) : D₁ = D₂ := by
  have hperm : D₁.Perm D₂ :=
    (List.perm_ext_iff_of_nodup (h1.imp fun h => h.ne) (h2.imp fun h => h.ne)).2 hm
  exact List.eq_of_perm_of_sorted hperm (h1.imp fun h => h.le) (h2.imp fun h => h.le)

/-! ## The `maxLen` field bounds every element's length -/

theorem le_maxLenFold (l : List GoStr) (m : Nat) : m ≤ maxLenFold m l := by
  induction l generalizing m with
  | nil => simp [maxLenFold]
  | cons s rest ih => exact le_trans (Nat.le_max_left _ _) (ih (max m s.length))

theorem length_le_maxLenFold {l : List GoStr} {s : GoStr} (h : s ∈ l) (m : Nat) :
    s.length ≤ maxLenFold m l := by
  induction l generalizing m with
  | nil => simp at h
  | cons t rest ih =>
    rcases List.mem_cons.1 h with h | h
    · subst h
      exact le_trans (Nat.le_max_right m s.length) (le_maxLenFold rest _)
    · exact ih h _

/-! ## Characterisation of the rank map built by `enumPairs` -/

theorem length_enumPairs (D : List GoStr) (k : Nat) :
    (enumPairs k D).length = D.length := by
  induction D generalizing k with
  | nil => rfl
  | cons a rest ih => simp [enumPairs, ih]

theorem find?_enumPairs_eq_some {D : List GoStr} {k : Nat} {s : GoStr}
    {pr : GoStr × Nat}
    (h : (enumPairs k D).find? (fun p => p.1 == s) = some pr) :
    pr.1 = s ∧ ∃ j, pr.2 = k + j ∧ D[j]? = some s := by
  induction D generalizing k with
  | nil => simp [enumPairs] at h
  | cons a rest ih =>
    simp only [enumPairs, List.find?_cons] at h
    by_cases ha : a = s
    · subst ha
      simp only [beq_self_eq_true, cond_true] at h
      cases h
      exact ⟨rfl, 0, by simp⟩
    · rw [show ((a == s : Bool)) = false by simpa using ha] at h
      simp only [cond_false] at h
      obtain ⟨h1, j, h2, h3⟩ := ih h
      exact ⟨h1, j + 1, by omega, by simpa using h3⟩

theorem find?_enumPairs_of_getElem? {D : List GoStr} {j : Nat} {s : GoStr}
    (hnd : D.Nodup) (h : D[j]? = some s) (k : Nat) :
    (enumPairs k D).find? (fun p => p.1 == s) = some (s, k + j) := by
  induction D generalizing k j with
  | nil => simp at h
  | cons a rest ih =>
    cases j with
    | zero =>
      simp only [List.getElem?_cons_zero, Option.some_inj] at h
      subst h
      simp [enumPairs, List.find?_cons]
    | succ j' =>
      simp only [List.getElem?_cons_succ] at h
      have hmem : s ∈ rest := List.getElem?_mem h
      have hne : a ≠ s := fun has => (List.nodup_cons.1 hnd).1 (has ▸ hmem)
      simp only [enumPairs, List.find?_cons,
        show ((a == s : Bool)) = false by simpa using hne, cond_false]
      rw [ih (List.nodup_cons.1 hnd).2 h (k + 1)]
      have harith : k + 1 + j' = k + (j' + 1) := by omega
      rw [harith]

theorem rankOf_eq_some_iff {L : List GoStr} {s : GoStr} {i : Nat} :
    (NewSortedSet L).rankOf s = some i ↔ (sortedDedup L)[i]? = some s := by
  constructor
  · intro h
    simp only [NewSortedSet, SortedSet.rankOf, Option.map_eq_some'] at h
    obtain ⟨pr, hfind, hsnd⟩ := h
    obtain ⟨h1, j, h2, h3⟩ := find?_enumPairs_eq_some hfind
    have hji : j = i := by omega
    exact hji ▸ h3
  · intro h
    simp only [NewSortedSet, SortedSet.rankOf]
    rw [find?_enumPairs_of_getElem? (nodup_sortedDedup L) h 0]
    simp

theorem size_NewSortedSet (L : List GoStr) :
    (NewSortedSet L).size = (sortedDedup L).length := by
  simp [NewSortedSet, SortedSet.size, length_enumPairs]

theorem rankOf_mem_sortedDedup {L : List GoStr} {s : GoStr} {i : Nat}
    (h : (NewSortedSet L).rankOf s = some i) : s ∈ sortedDedup L :=
  List.getElem?_mem (rankOf_eq_some_iff.1 h)

theorem rankOf_length_le {L : List GoStr} {s : GoStr} {i : Nat}
    (h : (NewSortedSet L).rankOf s = some i) :
    s.length ≤ (NewSortedSet L).maxLen :=
  length_le_maxLenFold (rankOf_mem_sortedDedup h) 0

theorem rankOf_of_mem {L : List GoStr} {s : GoStr} (h : s ∈ L) :
    ∃ i, (NewSortedSet L).rankOf s = some i := by
  obtain ⟨i, hi, hget⟩ := List.getElem_of_mem (mem_sortedDedup.2 h)
  exact ⟨i, rankOf_eq_some_iff.2 (by rw [List.getElem?_eq_getElem hi, hget])⟩

/-! ## C5: the rank map is a bijection onto `0..size-1` -/

/-- **C5.** For a set built by `NewSortedSet`: the rank map is injective;
its rank values are exactly `{0, ..., Size()-1}`; its keys are exactly the
distinct elements of the input; and every rank is strictly below `Size()`,
so the indexing done by `String` stays in bounds. -/
theorem c5_rank_bijection (L : List GoStr) :
    (∀ s₁ s₂ i, (NewSortedSet L).rankOf s₁ = some i →
        (NewSortedSet L).rankOf s₂ = some i → s₁ = s₂) ∧
    (∀ i, i < (NewSortedSet L).size ↔ ∃ s, (NewSortedSet L).rankOf s = some i) ∧
    (∀ s, (∃ i, (NewSortedSet L).rankOf s = some i) ↔ s ∈ L) ∧
    (∀ s i, (NewSortedSet L).rankOf s = some i → i < (NewSortedSet L).size) := by
  refine ⟨?_, ?_, ?_, ?_⟩
  · intro s₁ s₂ i h₁ h₂
    have g₁ := rankOf_eq_some_iff.1 h₁
    have g₂ := rankOf_eq_some_iff.1 h₂
    rw [g₁] at g₂
    exact Option.some_inj.1 g₂
  · intro i
    rw [size_NewSortedSet]
    constructor
    · intro hi
      exact ⟨(sortedDedup L)[i], rankOf_eq_some_iff.2 (List.getElem?_eq_getElem hi)⟩
    · rintro ⟨s, hs⟩
      have := rankOf_eq_some_iff.1 hs
      exact (List.getElem?_eq_some.1 this).1
  · intro s
    constructor
    · rintro ⟨i, hi⟩
      exact mem_sortedDedup.1 (rankOf_mem_sortedDedup hi)
    · exact rankOf_of_mem
  · intro s i h
    rw [size_NewSortedSet]
    exact (List.getElem?_eq_some.1 (rankOf_eq_some_iff.1 h)).1

/-- Witness for C5 at a concrete input: the singleton set over "a" has an
element of rank 0, so its size is positive. -/
theorem c5_rank_bijection_witness : 0 < (NewSortedSet [[97]]).size :=
  ((c5_rank_bijection [[97]]).2.1 0).2 ⟨[97], by decide⟩

/-! ## The `String` buffer fill reconstructs the sorted element list -/

theorem buildElems_enumPairs (D : List GoStr) :
    ∀ (k : Nat) (acc : List GoStr), k + D.length ≤ acc.length →
      ∀ j, (buildElems (enumPairs k D) acc)[j]? =
        if k ≤ j ∧ j < k + D.length then D[j - k]? else acc[j]? := by
  induction D with
  | nil =>
    intro k acc _ j
    simp only [enumPairs, buildElems, List.foldl_nil, List.length_nil]
    rw [if_neg (by omega)]
  | cons d rest ih =>
    intro k acc hlen j
    have hlen' : k + 1 + rest.length ≤ (acc.set k d).length := by
      simp only [List.length_set]
      simp only [List.length_cons] at hlen
      omega
    have hstep : buildElems (enumPairs k (d :: rest)) acc
        = buildElems (enumPairs (k + 1) rest) (acc.set k d) := rfl
    rw [hstep, ih (k + 1) (acc.set k d) hlen' j]
    by_cases h1 : k + 1 ≤ j ∧ j < k + 1 + rest.length
    · rw [if_pos h1, if_pos (by simp only [List.length_cons]; omega)]
      have hj : j - k = (j - (k + 1)) + 1 := by omega
      rw [hj, List.getElem?_cons_succ]
    · rw [if_neg h1]
      by_cases h2 : j = k
      · subst h2
        rw [List.getElem?_set, if_pos rfl,
          if_pos (by simp only [List.length_cons] at hlen; omega),
          if_pos (by simp only [List.length_cons]; omega)]
        simp
      · rw [List.getElem?_set, if_neg (fun hh => h2 hh.symm),
          if_neg (by simp only [List.length_cons]; omega)]

theorem string_NewSortedSet (L : List GoStr) :
    (NewSortedSet L).string = goJoin [commaByte] (sortedDedup L) := by
  unfold SortedSet.string
  congr 1
  apply List.ext_getElem?
  intro j
  have hent : (NewSortedSet L).entries = enumPairs 0 (sortedDedup L) := rfl
  rw [hent, size_NewSortedSet,
    buildElems_enumPairs _ 0 _ (by simp) j]
  by_cases hj : j < (sortedDedup L).length
  · rw [if_pos ⟨Nat.zero_le _, by omega⟩]
    simp
  · rw [if_neg (by omega), List.getElem?_eq_none (by simp; omega),
      List.getElem?_eq_none (by omega)]

/-! ## C6: `String` lists the distinct elements in ascending order -/

/-- **C6.** `String()` joins, with single commas and no leading or trailing
separator (`goJoin`), exactly the distinct elements of the input in strictly
ascending byte-wise lexicographic order; consequently two sets with the
same members serialize identically. -/
theorem c6_string_canonical (L : List GoStr) :
    (NewSortedSet L).string = goJoin [commaByte] (sortedDedup L) ∧
    (sortedDedup L).Pairwise LexLt ∧
    (∀ s, s ∈ sortedDedup L ↔ s ∈ L) ∧
    (∀ L', (∀ s, s ∈ L ↔ s ∈ L') →
      (NewSortedSet L).string = (NewSortedSet L').string) := by
  refine ⟨string_NewSortedSet L, pairwise_sortedDedup L, fun _ => mem_sortedDedup, ?_⟩
  intro L' hm
  rw [string_NewSortedSet L, string_NewSortedSet L']
  congr 1
  exact sortedDedup_unique (pairwise_sortedDedup L) (pairwise_sortedDedup L')
    (fun s => by rw [mem_sortedDedup, mem_sortedDedup]; exact hm s)

/-- Witness for C6 at a concrete input: two input lists with the same
members (up to order and duplicates) serialize identically. -/
theorem c6_string_canonical_witness :
    (NewSortedSet [[98], [97]]).string = (NewSortedSet [[97], [98], [97]]).string :=
  (c6_string_canonical [[98], [97]]).2.2.2 [[97], [98], [97]]
    (fun s => by simp [or_comm])

/-! ## Characterisation of `cutAtComma` -/

theorem indexByte_eq_none {s : GoStr} {b : Nat} (h : b ∉ s) : indexByte s b = none := by
  induction s with
  | nil => rfl
  | cons a t ih =>
    have ha : a ≠ b := fun hab => h (by simp [hab])
    simp only [indexByte, if_neg ha]
    rw [ih (fun hmem => h (List.mem_cons_of_mem _ hmem))]
    rfl

theorem indexByte_getElem? {s : GoStr} {b i : Nat} (h : indexByte s b = some i) :
    s[i]? = some b := by
  induction s generalizing i with
  | nil => simp [indexByte] at h
  | cons a t ih =>
    simp only [indexByte] at h
    split at h
    · next hab => cases h; simp [hab]
    · match hh : indexByte t b with
      | none => rw [hh] at h; simp at h
      | some j =>
        rw [hh] at h
        simp only [Option.map_some'] at h
        cases h
        simpa using ih hh

theorem indexByte_append {x : GoStr} (r : GoStr) {b : Nat} (hx : b ∉ x) :
    indexByte (x ++ b :: r) b = some x.length := by
  induction x with
  | nil => simp [indexByte]
  | cons a t ih =>
    have ha : a ≠ b := fun hab => hx (by simp [hab])
    have ih' := ih (fun hmem => hx (List.mem_cons_of_mem _ hmem))
    show indexByte (a :: (t ++ b :: r)) b = some (t.length + 1)
    simp only [indexByte, if_neg ha, ih', Option.map_some']

theorem cutAtComma_no_comma {s : GoStr} (n : Nat) (hs : commaByte ∉ s) :
    cutAtComma s n = (s, [], false) := by
  unfold cutAtComma
  simp only
  rw [indexByte_eq_none (fun hmem => hs (List.take_subset _ _ hmem))]

theorem cutAtComma_comma {x : GoStr} (r : GoStr) {n : Nat}
    (hx : commaByte ∉ x) (hlen : x.length < n) :
    cutAtComma (x ++ commaByte :: r) n = (x, r, true) := by
  unfold cutAtComma
  simp only
  have hstop : x.length + 1 ≤ min (x ++ commaByte :: r).length n := by
    simp only [List.length_append, List.length_cons]
    omega
  have htake : (x ++ commaByte :: r).take (min (x ++ commaByte :: r).length n)
      = x ++ commaByte :: ((commaByte :: r).tail.take (min (x ++ commaByte :: r).length n - x.length - 1)) := by
    rw [List.take_append_eq_append_take,
      List.take_of_length_le (by omega : x.length ≤ _)]
    congr 1
    have : min (x ++ commaByte :: r).length n - x.length
        = (min (x ++ commaByte :: r).length n - x.length - 1) + 1 := by omega
    rw [this]
    simp [List.take_succ_cons]
  rw [htake, indexByte_append _ hx]
  simp only [List.tail_cons]
  rw [List.take_append_eq_append_take, List.take_of_length_le (le_refl x.length),
    Nat.sub_self, List.take_zero, List.append_nil]
  rw [List.drop_append_eq_append_drop]
  simp

theorem cutAtComma_true_decomp {s : GoStr} {n : Nat} {name rest : GoStr}
    (h : cutAtComma s n = (name, rest, true)) : s = name ++ commaByte :: rest := by
  unfold cutAtComma at h
  simp only at h
  split at h
  next i hidx =>
    injection h with h1 h23
    injection h23 with h2 h3
    have hgets : s[i]? = some commaByte := by
      have hq := indexByte_getElem? hidx
      rw [List.getElem?_take] at hq
      split at hq
      · exact hq
      · simp at hq
    have hi : i < s.length := by
      rcases List.getElem?_eq_some.1 hgets with ⟨hh, _⟩
      exact hh
    have hsval : s[i] = commaByte := by
      rcases List.getElem?_eq_some.1 hgets with ⟨hh, hv⟩
      exact hv
    subst h1
    subst h2
    conv_lhs => rw [← List.take_append_drop i s]
    rw [List.drop_eq_getElem_cons hi, hsval]
  next => simp at h

theorem cutAtComma_false_decomp {s : GoStr} {n : Nat} {name rest : GoStr}
    (h : cutAtComma s n = (name, rest, false)) : name = s ∧ rest = [] := by
  unfold cutAtComma at h
  simp only at h
  split at h
  next => simp at h
  next =>
    injection h with h1 h23
    injection h23 with h2 h3
    exact ⟨h1.symm, h2.symm⟩

/-! ## Step lemmas for the `Subsumes` loop -/

theorem subsumesLoop_none {set : SortedSet} {chunkSize : Nat} {csv : GoStr}
    {posLast : Int} {name rest : GoStr} {found : Bool}
    (hcut : cutAtComma csv chunkSize = (name, rest, found))
    (hrank : set.rankOf name = none) :
    subsumesLoop set chunkSize csv posLast = false := by
  rw [subsumesLoop]
  split
  next nm rs fnd heq =>
    rw [hcut] at heq
    injection heq with e1 e2
    injection e2 with e2 e3
    subst e1; subst e2; subst e3
    rw [hrank]

theorem subsumesLoop_le {set : SortedSet} {chunkSize : Nat} {csv : GoStr}
    {posLast : Int} {name rest : GoStr} {found : Bool} {pos : Nat}
    (hcut : cutAtComma csv chunkSize = (name, rest, found))
    (hrank : set.rankOf name = some pos) (hle : (pos : Int) ≤ posLast) :
    subsumesLoop set chunkSize csv posLast = false := by
  rw [subsumesLoop]
  split
  next nm rs fnd heq =>
    rw [hcut] at heq
    injection heq with e1 e2
    injection e2 with e2 e3
    subst e1; subst e2; subst e3
    rw [hrank]
    simp [hle]

theorem subsumesLoop_found {set : SortedSet} {chunkSize : Nat} {csv : GoStr}
    {posLast : Int} {name rest : GoStr} {pos : Nat}
    (hcut : cutAtComma csv chunkSize = (name, rest, true))
    (hrank : set.rankOf name = some pos) (hle : ¬ ((pos : Int) ≤ posLast)) :
    subsumesLoop set chunkSize csv posLast = subsumesLoop set chunkSize rest pos := by
  rw [subsumesLoop]
  split
  next nm rs fnd heq =>
    rw [hcut] at heq
    injection heq with e1 e2
    injection e2 with e2 e3
    subst e1; subst e2; subst e3
    rw [hrank]
    simp only [hle, if_false]
    rfl

theorem subsumesLoop_last {set : SortedSet} {chunkSize : Nat} {csv : GoStr}
    {posLast : Int} {name rest : GoStr} {pos : Nat}
    (hcut : cutAtComma csv chunkSize = (name, rest, false))
    (hrank : set.rankOf name = some pos) (hle : ¬ ((pos : Int) ≤ posLast)) :
    subsumesLoop set chunkSize csv posLast = true := by
  rw [subsumesLoop]
  split
  next nm rs fnd heq =>
    rw [hcut] at heq
    injection heq with e1 e2
    injection e2 with e2 e3
    subst e1; subst e2; subst e3
    rw [hrank]
    simp [hle]

theorem goJoinRest_eq (sep t : GoStr) (ts : List GoStr) :
    goJoinRest sep (t :: ts) = sep ++ goJoin sep (t :: ts) := by
  simp [goJoinRest, goJoin, List.append_assoc]

theorem goJoin_cons_cons (sep a t : GoStr) (ts : List GoStr) :
    goJoin sep (a :: t :: ts) = a ++ sep ++ goJoin sep (t :: ts) := by
  conv_lhs => rw [goJoin, goJoinRest_eq]
  simp [List.append_assoc]

/-! ## The `Subsumes` loop, characterised -/

/-- The `Subsumes` loop accepts exactly the comma-joins of a non-empty
sequence of set elements whose ranks strictly increase, starting above
`posOfLastNameSeen`. -/
theorem subsumesLoop_iff {L : List GoStr} (hL : ∀ s ∈ L, commaByte ∉ s)
    (csv : GoStr) (posLast : Int) :
    subsumesLoop (NewSortedSet L) ((NewSortedSet L).maxLen + 1) csv posLast = true ↔
    ∃ toks rs, toks ≠ [] ∧ csv = goJoin [commaByte] toks ∧
      List.Forall₂ (fun t r => (NewSortedSet L).rankOf t = some r) toks rs ∧
      rs.Chain' (· < ·) ∧ (∀ r₀ ∈ rs.head?, posLast < (r₀ : Int)) := by
  constructor
  · intro hloop
    rcases hcut : cutAtComma csv ((NewSortedSet L).maxLen + 1) with ⟨name, rest, found⟩
    rcases hrank : (NewSortedSet L).rankOf name with _ | pos
    · rw [subsumesLoop_none hcut hrank] at hloop
      exact absurd hloop (by simp)
    · by_cases hle : (pos : Int) ≤ posLast
      · rw [subsumesLoop_le hcut hrank hle] at hloop
        exact absurd hloop (by simp)
      · cases found with
        | false =>
          obtain ⟨hname, -⟩ := cutAtComma_false_decomp hcut
          refine ⟨[name], [pos], by simp, by simp [goJoin, goJoinRest, hname],
            List.Forall₂.cons hrank List.Forall₂.nil, by simp, ?_⟩
          intro r₀ hr₀
          simp only [List.head?_cons, Option.mem_def, Option.some_inj] at hr₀
          subst hr₀
          omega
        | true =>
          rw [subsumesLoop_found hcut hrank hle] at hloop
          have hdec := cutAtComma_true_decomp hcut
          have hlt : rest.length < csv.length := cutAtComma_found_length hcut
          obtain ⟨toks', rs', hne', hjoin', hF', hchain', hhead'⟩ :=
            (subsumesLoop_iff hL rest pos).1 hloop
          rcases toks' with _ | ⟨t, ts⟩
          · exact absurd rfl hne'
          refine ⟨name :: t :: ts, pos :: rs', by simp, ?_,
            List.Forall₂.cons hrank hF', ?_, ?_⟩
          · rw [goJoin_cons_cons, ← hjoin', hdec]
            simp
          · rw [List.chain'_cons']
            refine ⟨fun b hb => ?_, hchain'⟩
            have := hhead' b hb
            omega
          · intro r₀ hr₀
            simp only [List.head?_cons, Option.mem_def, Option.some_inj] at hr₀
            subst hr₀
            omega
  · rintro ⟨toks, rs, hne, hjoin, hF, hchain, hhead⟩
    rcases toks with _ | ⟨name₀, toks'⟩
    · exact absurd rfl hne
    rcases rs with _ | ⟨pos₀, rs'⟩
    · cases hF
    have hF₀ : (NewSortedSet L).rankOf name₀ = some pos₀ := (List.forall₂_cons.1 hF).1
    have hFrest := (List.forall₂_cons.1 hF).2
    have hfree : commaByte ∉ name₀ := hL _ (mem_sortedDedup.1 (rankOf_mem_sortedDedup hF₀))
    have hlenb : name₀.length < (NewSortedSet L).maxLen + 1 :=
      Nat.lt_succ_of_le (rankOf_length_le hF₀)
    have hle : ¬ ((pos₀ : Int) ≤ posLast) := by
      have := hhead pos₀ (by simp)
      omega
    rcases toks' with _ | ⟨t, ts⟩
    · have hjoin' : csv = name₀ := by simpa [goJoin, goJoinRest] using hjoin
      have hcut' : cutAtComma csv ((NewSortedSet L).maxLen + 1) = (csv, [], false) :=
        cutAtComma_no_comma _ (hjoin' ▸ hfree)
      exact subsumesLoop_last hcut' (hjoin' ▸ hF₀) hle
    · have hjoin2 : csv = name₀ ++ commaByte :: goJoin [commaByte] (t :: ts) := by
        rw [hjoin, goJoin_cons_cons]
        simp
      have hcut2 : cutAtComma csv ((NewSortedSet L).maxLen + 1)
          = (name₀, goJoin [commaByte] (t :: ts), true) := by
        rw [hjoin2]
        exact cutAtComma_comma _ hfree hlenb
      have hlt : (goJoin [commaByte] (t :: ts)).length < csv.length := by
        rw [hjoin2]
        simp only [List.length_append, List.length_cons]
        omega
      rw [subsumesLoop_found hcut2 hF₀ hle]
      rcases rs' with _ | ⟨r', rs''⟩
      · cases hFrest
      apply (subsumesLoop_iff hL (goJoin [commaByte] (t :: ts)) pos₀).2
      refine ⟨t :: ts, r' :: rs'', by simp, rfl, hFrest,
        (List.chain'_cons'.1 hchain).2, ?_⟩
      intro r₀ hr₀
      simp only [List.head?_cons, Option.mem_def, Option.some_inj] at hr₀
      subst hr₀
      have := (List.chain'_cons'.1 hchain).1 r' (by simp)
      omega
termination_by csv.length
decreasing_by
  · exact hlt
  · exact hlt

/-! ## C2: `Subsumes` decides sorted-subset membership -/

/-- **C2.** For a set built from comma-free elements, `Subsumes csv` is true
iff `csv` is empty or `csv` is exactly the comma-join of a non-empty
sequence of set elements whose ranks strictly increase (so unknown tokens,
out-of-order tokens and repeated tokens are all rejected). -/
theorem c2_subsumes_iff (L : List GoStr) (hL : ∀ s ∈ L, commaByte ∉ s)
    (csv : GoStr) :
    (NewSortedSet L).subsumes csv = true ↔
    (csv = [] ∨
      ∃ toks rs, toks ≠ [] ∧ csv = goJoin [commaByte] toks ∧
        List.Forall₂ (fun t r => (NewSortedSet L).rankOf t = some r) toks rs ∧
        rs.Chain' (· < ·)) := by
  unfold SortedSet.subsumes
  by_cases hcsv : csv = []
  · simp [hcsv]
  · rw [if_neg hcsv, subsumesLoop_iff hL csv (-1)]
    constructor
    · rintro ⟨toks, rs, h1, h2, h3, h4, _⟩
      exact Or.inr ⟨toks, rs, h1, h2, h3, h4⟩
    · rintro (h | ⟨toks, rs, h1, h2, h3, h4⟩)
      · exact absurd h hcsv
      · exact ⟨toks, rs, h1, h2, h3, h4, fun r₀ hr₀ => by omega⟩

/-- Witness for C2 at a concrete input: the set {"a", "b"} and the CSV
"a,b". -/
theorem c2_subsumes_iff_witness :
    (NewSortedSet [[97], [98]]).subsumes [97, 44, 98] = true ↔
    (([97, 44, 98] : GoStr) = [] ∨
      ∃ toks rs, toks ≠ [] ∧ ([97, 44, 98] : GoStr) = goJoin [commaByte] toks ∧
        List.Forall₂ (fun t r => (NewSortedSet [[97], [98]]).rankOf t = some r) toks rs ∧
        rs.Chain' (· < ·)) :=
  c2_subsumes_iff [[97], [98]] (by decide) [97, 44, 98]

/-! ## C4: a set subsumes its own serialization -/

/-- **C4, counterexample.** The claim is stated for *every* finite list of
strings, but it fails when an element contains a comma: the singleton set
over the one-byte string "," serializes to ",", and `Subsumes(",")` parses
the empty token before the comma, which is not an element, hence `false`. -/
theorem c4_counterexample :
    (NewSortedSet [[44]]).subsumes ((NewSortedSet [[44]]).string) = false := by
  simp [SortedSet.subsumes, SortedSet.string, subsumesLoop, cutAtComma, indexByte,
    SortedSet.rankOf, NewSortedSet, sortedDedup, compactAdj, compactTail, lexLe, LexLe,
    SortedSet.size, buildElems, enumPairs, maxLenFold, commaByte, goJoin, goJoinRest]

/-- **C4, amended.** For every finite list `L` of strings none of which
contains a comma, the set built from `L` subsumes its own canonical
serialization. -/
theorem c4_self_subsumption (L : List GoStr) (hL : ∀ s ∈ L, commaByte ∉ s) :
    (NewSortedSet L).subsumes ((NewSortedSet L).string) = true := by
  rw [string_NewSortedSet]
  by_cases hnil : goJoin [commaByte] (sortedDedup L) = []
  · simp [SortedSet.subsumes, hnil]
  · unfold SortedSet.subsumes
    rw [if_neg hnil, subsumesLoop_iff hL _ (-1)]
    refine ⟨sortedDedup L, List.range (sortedDedup L).length, ?_, rfl, ?_, ?_, ?_⟩
    · intro hD
      rw [hD] at hnil
      exact hnil rfl
    · rw [List.forall₂_iff_get]
      refine ⟨by simp, ?_⟩
      intro i h₁ h₂
      rw [List.get_eq_getElem, List.get_eq_getElem, List.getElem_range]
      exact rankOf_eq_some_iff.2 (List.getElem?_eq_getElem h₁)
    · exact (List.pairwise_lt_range _).chain'
    · intro r₀ _
      omega

/-- Witness for the amended C4 at a concrete input: the set {"a", "b"}
subsumes its own serialization "a,b". -/
theorem c4_self_subsumption_witness :
    (NewSortedSet [[97], [98]]).subsumes ((NewSortedSet [[97], [98]]).string) = true :=
  c4_self_subsumption [[97], [98]] (by decide)

/-! ## C10: sentinel-holding tag sets are immutable singletons -/

/-- A tag set is *sentinel-closed*: if it holds the match-all sentinel,
it is exactly the shared singleton `wildcardSingleton`. -/
def SetOk (s : TagSet) : Prop :=
  setContains s WildcardElem = true → s = wildcardSingleton

/-- Every tag set stored anywhere in a node's subtree is sentinel-closed. -/
inductive NodeOk : Node → Prop where
  | mk : ∀ (sfx : GoStr) (e : Nat → Option Node) (s w : TagSet),
      SetOk s → SetOk w → (∀ b m, e b = some m → NodeOk m) →
      NodeOk (.mk sfx e s w)

theorem NodeOk.set_ok {n : Node} (h : NodeOk n) : SetOk n.set := by
  cases h
  assumption

theorem NodeOk.wildcardSet_ok {n : Node} (h : NodeOk n) : SetOk n.wildcardSet := by
  cases h
  assumption

theorem NodeOk.edge {n m : Node} {b : Nat} (h : NodeOk n)
    (he : n.edges b = some m) : NodeOk m := by
  cases h with
  | mk sfx e s w hs hw hedges => exact hedges b m he

theorem setOk_nil : SetOk [] := by
  intro h
  simp [setContains] at h

theorem setOk_wildcardSingleton : SetOk wildcardSingleton := fun _ => rfl

theorem nodeAddSet_wildcardSingleton (e : Int) :
    nodeAddSet wildcardSingleton e = wildcardSingleton := by
  by_cases he : e = WildcardElem
  · simp [nodeAddSet, he]
  · simp [nodeAddSet, he, wildcardSingleton, NewSet, setContains, WildcardElem]

theorem setOk_nodeAddSet {s : TagSet} (h : SetOk s) (e : Int) :
    SetOk (nodeAddSet s e) := by
  unfold nodeAddSet
  by_cases he : e = WildcardElem
  · simp only [he, if_pos rfl]
    exact setOk_wildcardSingleton
  · rw [if_neg he]
    by_cases hnil : s = []
    · rw [if_pos hnil]
      intro hc
      simp [NewSet, setContains, he] at hc
      exact absurd hc.symm he
    · rw [if_neg hnil]
      by_cases hwc : setContains s WildcardElem = true
      · rw [if_pos hwc]
        exact h
      · rw [if_neg hwc]
        intro hc
        unfold setAdd at hc
        split at hc
        · exact absurd hc hwc
        · simp [setContains] at hc hwc
          rcases hc with hc | hc
          · exact absurd hc hwc
          · exact absurd hc.symm he

theorem nodeOk_add {n : Node} (h : NodeOk n) (v : Int) (w : Bool) :
    NodeOk (n.add v w) := by
  cases h with
  | mk sfx e s ws hs hw hedges =>
    simp only [Node.add]
    split
    · exact NodeOk.mk _ _ _ _ hs (setOk_nodeAddSet hw v) hedges
    · exact NodeOk.mk _ _ _ _ (setOk_nodeAddSet hs v) hw hedges

theorem nodeOk_newNode (sfx : GoStr) : NodeOk (newNode sfx) :=
  NodeOk.mk _ _ _ _ setOk_nil setOk_nil (fun _ _ h => Option.noConfusion h)

theorem nodeOk_insertEdge {n c : Node} (h : NodeOk n) (hc : NodeOk c) (b : Nat) :
    NodeOk (n.insertEdge b c) := by
  cases h with
  | mk sfx e s w hs hw hedges =>
    unfold Node.insertEdge
    refine NodeOk.mk _ _ _ _ hs hw ?_
    intro b' m hm
    by_cases hb : b' = b
    · rw [if_pos hb] at hm
      cases hm
      exact hc
    · rw [if_neg hb] at hm
      exact hedges b' m hm

theorem nodeOk_insertLoop {n : Node} (h : NodeOk n) (fuel : Nat) (search : GoStr)
    (v : Int) (w : Bool) : NodeOk (insertLoop fuel n search v w) := by
  induction fuel generalizing n search with
  | zero => exact h
  | succ f ih =>
    rw [insertLoop]
    by_cases hs : search = []
    · rw [if_pos hs]
      exact nodeOk_add h v w
    · rw [if_neg hs]
      by_cases hwc : setContains n.wildcardSet v = true
      · rw [if_pos hwc]
        exact h
      · rw [if_neg hwc]
        rcases hedge : n.edges (lastByteIn search) with _ | c
        · exact nodeOk_insertEdge h (nodeOk_add (nodeOk_newNode search) v w) _
        · have hc : NodeOk c := h.edge hedge
          obtain ⟨sfxc, ec, sc, wc, hsc, hwcc, hec⟩ := hc
          simp only
          split
          · exact nodeOk_insertEdge h (ih (NodeOk.mk _ _ _ _ hsc hwcc hec) _) _
          · split
            · refine nodeOk_insertEdge h (nodeOk_add ?_ v w) _
              refine NodeOk.mk _ _ _ _ setOk_nil setOk_nil ?_
              intro b m hm
              split at hm
              · cases hm
                exact NodeOk.mk _ _ _ _ hsc hwcc hec
              · exact Option.noConfusion hm
            · refine nodeOk_insertEdge h ?_ _
              refine NodeOk.mk _ _ _ _ setOk_nil setOk_nil ?_
              intro b m hm
              split at hm
              · cases hm
                exact nodeOk_add (nodeOk_newNode _) v w
              · split at hm
                · cases hm
                  exact ih (NodeOk.mk _ _ _ _ hsc hwcc hec) _
                · exact Option.noConfusion hm

theorem nodeOk_insert {t : Tree} (h : NodeOk t.root) (p : GoStr) (v : Int) :
    NodeOk (t.Insert p v).root :=
  nodeOk_insertLoop h _ _ _ _

theorem nodeOk_insertAll (ops : List (GoStr × Int)) :
    ∀ {t : Tree}, NodeOk t.root → NodeOk (insertAll t ops).root := by
  induction ops with
  | nil => intro t h; exact h
  | cons op rest ih =>
    intro t h
    exact ih (nodeOk_insert h op.1 op.2)

theorem nodeOk_emptyTree : NodeOk emptyTree.root :=
  NodeOk.mk _ _ _ _ setOk_nil setOk_nil (fun _ _ h => Option.noConfusion h)

/-- `d` is reachable from `n` by following zero or more edges. -/
inductive Descendant : Node → Node → Prop where
  | refl (n : Node) : Descendant n n
  | step {n m d : Node} {b : Nat} (he : n.edges b = some m)
      (hd : Descendant m d) : Descendant n d

theorem nodeOk_descendant {n d : Node} (h : NodeOk n) (hd : Descendant n d) :
    NodeOk d := by
  induction hd with
  | refl => exact h
  | step he _ ih => exact ih (h.edge he)

/-- **C10.** In every tree reachable by insertions from the empty tree,
any node whose regular or wildcard tag set contains the sentinel −1 holds
exactly the singleton `{−1}` (the shared `wildcardSingleton` value), and
adding any further element to such a set returns it unchanged — so the
shared singleton is never mutated by insertions. -/
theorem c10_sentinel_singleton (ops : List (GoStr × Int)) (n : Node)
    (hd : Descendant (insertAll emptyTree ops).root n) :
    (setContains n.set WildcardElem = true →
      n.set = [WildcardElem] ∧ ∀ e, nodeAddSet n.set e = n.set) ∧
    (setContains n.wildcardSet WildcardElem = true →
      n.wildcardSet = [WildcardElem] ∧ ∀ e, nodeAddSet n.wildcardSet e = n.wildcardSet) := by
  have hok : NodeOk n :=
    nodeOk_descendant (nodeOk_insertAll ops nodeOk_emptyTree) hd
  constructor
  · intro hc
    have hset := hok.set_ok hc
    refine ⟨hset, fun e => ?_⟩
    rw [hset, nodeAddSet_wildcardSingleton]
  · intro hc
    have hset := hok.wildcardSet_ok hc
    refine ⟨hset, fun e => ?_⟩
    rw [hset, nodeAddSet_wildcardSingleton]

/-- Witness for C10 at a concrete input: after `Insert("*", −1)` the root's
wildcard tag set is exactly the sentinel singleton. -/
theorem c10_sentinel_singleton_witness :
    (insertAll emptyTree [([42], -1)]).root.wildcardSet = [WildcardElem] :=
  ((c10_sentinel_singleton [([42], -1)] _ (Descendant.refl _)).2 (by decide)).1

end JubCors
